import Mathlib

/-!
Shallow embedding of the gannot genomic data-model library
(src/genome.rs and src/format.rs): sequence identifiers and their
ordering, genomic ranges with coordinate-convention conversion, locus
string parsing, GFF3 attribute parsing, and BedGraph-family row
conversion into data intervals.

Strings are embedded as lists of characters; u64 arithmetic is embedded
as natural-number arithmetic with an explicit modulus where the source
performs wrapping (overflowing) machine arithmetic.
-/

namespace Gannot

/-- The u64 modulus: machine arithmetic in the source is on 64-bit
unsigned integers. -/
def U64_MOD : Nat := 2 ^ 64

/-- Wrapping u64 addition, modelling `a + b` on u64 where the sum may
overflow (release-build semantics; debug builds panic instead). -/
def u64_wrapping_add (a b : Nat) : Nat := (a + b) % U64_MOD

/-- Wrapping u64 subtraction, modelling `a - b` on u64 where the
difference may underflow (release-build semantics; debug builds panic
instead). Intended for `a b < U64_MOD`. -/
def u64_wrapping_sub (a b : Nat) : Nat := (a + U64_MOD - b) % U64_MOD

/-- Embeds `SeqId` (src/genome.rs): a newtype over a string. -/
structure SeqId where
  str : List Char
deriving DecidableEq

/-- Embeds the `Error` enum of src/genome.rs: its single variant is
`InvalidArguments(String)`. -/
inductive Error where
  | invalidArguments (msg : String)
deriving DecidableEq

/-- Embeds Rust `Result<A, Error>`. -/
inductive Res (α : Type) where
  | ok (val : α)
  | err (e : Error)
deriving DecidableEq

/-- Byte-order comparison of two characters (the source compares strings
as UTF-8 byte sequences; UTF-8 is codepoint-order preserving, so
comparing codepoints is equivalent). -/
def charCmp (a b : Char) : Ordering :=
  if a.toNat < b.toNat then .lt else if b.toNat < a.toNat then .gt else .eq

/-- Lexicographic comparison of strings, embedding Rust `str::cmp`. -/
def strCmp : List Char → List Char → Ordering
  | [], [] => .eq
  | [], _ :: _ => .lt
  | _ :: _, [] => .gt
  | a :: as_, b :: bs =>
    match charCmp a b with
    | .eq => strCmp as_ bs
    | ord => ord

/-- Comparison of natural numbers, embedding `u32::cmp` / `u64::cmp`. -/
def natCmp (m n : Nat) : Ordering :=
  if m < n then .lt else if n < m then .gt else .eq

/-- Value of a decimal digit character, `none` for non-digits. -/
def decDigit? (c : Char) : Option Nat :=
  if '0' ≤ c ∧ c ≤ '9' then some (c.toNat - '0'.toNat) else none

/-- Accumulates the decimal value of a digit string; `none` on the first
non-digit character. -/
def digitsToNat? : List Char → Nat → Option Nat
  | [], acc => some acc
  | c :: rest, acc =>
    match decDigit? c with
    | some d => digitsToNat? rest (acc * 10 + d)
    | none => none

/-- The digits part of Rust `str::parse` for an unsigned integer type
with exclusive bound `bound`: one or more decimal digits, rejecting
overflow. The source checks overflow step by step; for this grammar
that is equivalent to checking the final value, since the accumulated
value only grows. -/
def parseBody (bound : Nat) (l : List Char) : Res Nat :=
  match l with
  | [] => Res.err (Error.invalidArguments "cannot parse integer from empty string")
  | _ :: _ =>
    match digitsToNat? l 0 with
    | some n =>
      if n < bound then Res.ok n
      else Res.err (Error.invalidArguments "number too large to fit in target type")
    | none => Res.err (Error.invalidArguments "invalid digit found in string")

/-- Embeds Rust `str::parse` for an unsigned integer type with exclusive
bound `bound` (2^32 for u32, 2^64 for u64): an optional leading plus
sign, then one or more decimal digits. -/
def parseUnsigned (bound : Nat) (s : List Char) : Res Nat :=
  match s with
  | [] => parseBody bound []
  | c :: rest => if c = '+' then parseBody bound rest else parseBody bound (c :: rest)

/-- Rust `str::parse::<u32>`. -/
def parseU32 (s : List Char) : Res Nat := parseUnsigned (2 ^ 32) s

/-- Rust `str::parse::<u64>`. -/
def parseU64 (s : List Char) : Res Nat := parseUnsigned (2 ^ 64) s

/-- Embeds `impl Ord for SeqId` (src/genome.rs lines 48-62): compare the
strings; on equality return equal; otherwise, if both strings parse as
u32, compare numerically, else return the string ordering. -/
def seqid_cmp (a b : SeqId) : Ordering :=
  match strCmp a.str b.str with
  | .eq => .eq
  | ord =>
    match parseU32 a.str, parseU32 b.str with
    | Res.ok seqnum, Res.ok other_seqnum => natCmp seqnum other_seqnum
    | _, _ => ord

/-- Modelled from the spec words of section 4.1, for comparison with the
source embedding `seqid_cmp`: precedence (a) identical strings compare
equal; (b) otherwise, if both fully parse as unsigned 32-bit integers,
numeric comparison; (c) otherwise lexicographic string comparison. -/
def seqIdCmpSpec (a b : SeqId) : Ordering :=
  if a.str = b.str then .eq
  else
    match parseU32 a.str, parseU32 b.str with
    | Res.ok m, Res.ok n => natCmp m n
    | _, _ => strCmp a.str b.str

/-- Embeds `GenomicRange` (src/genome.rs): a seqid with 0-based
half-open coordinates. The source field named `end` is embedded as
`stop` because `end` is a Lean keyword. -/
structure GenomicRange where
  seqid : SeqId
  start : Nat
  stop : Nat
deriving DecidableEq

/-- Embeds `GenomicRange::combine` (src/genome.rs lines 127-139). -/
def combine (a b : GenomicRange) : Res GenomicRange :=
  if a.seqid ≠ b.seqid then
    Res.err (Error.invalidArguments "can only combine GenomicRanges with the same seqid")
  else
    Res.ok { seqid := a.seqid, start := min a.start b.start, stop := max a.stop b.stop }

/-- Embeds `GenomicRange::from_0halfopen` (src/genome.rs lines 141-148).
The range argument is the pair (range.start, range.end). -/
def from_0halfopen (seqid : SeqId) (range : Nat × Nat) : Res GenomicRange :=
  Res.ok { seqid := seqid, start := range.1, stop := range.2 }

/-- Embeds `GenomicRange::from_1closed` (src/genome.rs lines 150-160).
The range argument is the pair (range.start, range.end) of the inclusive
range. The subtraction `start - 1` is exact: it is guarded by the
`start == 0` check, so no underflow can occur. -/
def from_1closed (seqid : SeqId) (range : Nat × Nat) : Res GenomicRange :=
  if range.1 = 0 then
    Res.err (Error.invalidArguments "1-based coordinates can\x27t start with 0")
  else
    Res.ok { seqid := seqid, start := range.1 - 1, stop := range.2 }

/-- Embeds `GenomicRange::range_1closed` (src/genome.rs lines 182-184):
`(self.start + 1)..=(self.end)`. The addition is unguarded u64
arithmetic, so it is embedded as wrapping addition. -/
def range_1closed (g : GenomicRange) : Nat × Nat :=
  (u64_wrapping_add g.start 1, g.stop)

/-- Embeds `GenomicRange::range_0halfopen` (src/genome.rs lines
186-188). -/
def range_0halfopen (g : GenomicRange) : Nat × Nat :=
  (g.start, g.stop)

/-- Embeds `GenomicRange::range_0closed` (src/genome.rs lines 190-193):
`assert!(self.end > self.start)` then `start..=(end - 1)`. The
assertion failure (a Rust abort) is embedded as `none`. -/
def range_0closed (g : GenomicRange) : Option (Nat × Nat) :=
  if g.start < g.stop then some (g.start, g.stop - 1) else none

/-- Embeds Rust `str::split(sep)`: splits on every occurrence of the
separator, keeping empty pieces; the empty string yields one empty
piece. -/
def splitChar (sep : Char) : List Char → List (List Char)
  | [] => [[]]
  | c :: rest =>
    match splitChar sep rest with
    | [] => [[]]
    | t :: ts => if c = sep then [] :: t :: ts else (c :: t) :: ts

/-- Embeds Rust `str::splitn(2, sep)`: the part before the first
separator, and the part after it when the separator occurs (`none`
when it does not). -/
def splitFirst (sep : Char) : List Char → List Char × Option (List Char)
  | [] => ([], none)
  | c :: rest =>
    if c = sep then ([], some rest)
    else
      let p := splitFirst sep rest
      (c :: p.1, p.2)

/-- Joins pieces with the separator; the inverse of `splitChar`. -/
def joinSep (sep : Char) : List (List Char) → List Char
  | [] => []
  | [a] => a
  | a :: b :: rest => a ++ sep :: joinSep sep (b :: rest)

/-- The error message of `impl TryFrom<&str> for GenomicRange`
(src/genome.rs line 102), hinting at the expected grammar. -/
def locusMsg : String := "location should be in the form <seqid>:<start>-<end>"

/-- Embeds `impl TryFrom<&str> for GenomicRange` (src/genome.rs lines
84-104): split on a colon into exactly two parts, split the second on a
dash into exactly two parts, parse both as u64, and pass the resulting
inclusive range through `from_1closed`; every other path falls through
to a single `InvalidArguments` error carrying the grammar hint. The
source checks `values.len() == 2` and indexes; matching on the
two-element list is the same test. -/
def genomicRange_try_from (value : List Char) : Res GenomicRange :=
  match splitChar ':' value with
  | [seqid, range] =>
    match splitChar '-' range with
    | [b0, b1] =>
      match parseU64 b0, parseU64 b1 with
      | Res.ok start, Res.ok e => from_1closed ⟨seqid⟩ (start, e)
      | _, _ => Res.err (Error.invalidArguments locusMsg)
    | _ => Res.err (Error.invalidArguments locusMsg)
  | _ => Res.err (Error.invalidArguments locusMsg)

/-- Embeds the `Strand` enum (src/format.rs). -/
inductive Strand where
  | Plus
  | Minus
  | None
deriving DecidableEq

/-- Embeds `Gff3Row<T>` (src/format.rs): the nine GFF3 columns, generic
over the feature-type representation. The source field named `end` is
embedded as `stop`. The attributes map is embedded as its underlying
insertion-ordered association list. -/
structure Gff3Row (T : Type) where
  seqid : SeqId
  source : List Char
  feature_type : T
  start : Nat
  stop : Nat
  score : List Char
  strand : Strand
  phase : List Char
  attributes : List (List Char × List Char)

/-- Embeds `GenomicRange::from_gff_row` (src/genome.rs lines 162-168):
`start: row.start - 1, end: row.end`. The subtraction is unguarded u64
arithmetic, so it is embedded as wrapping subtraction (debug builds
panic when `row.start == 0`). -/
def from_gff_row {T : Type} (row : Gff3Row T) : GenomicRange :=
  { seqid := row.seqid, start := u64_wrapping_sub row.start 1, stop := row.stop }

/-- Embeds `IndexMap::insert` on the underlying association list: when
the key is present, overwrite its value in place (keeping its
position); otherwise append the new pair at the end. -/
def imInsert {α β : Type} [DecidableEq α] : List (α × β) → α → β → List (α × β)
  | [], k, v => [(k, v)]
  | p :: rest, k, v =>
    if p.1 = k then (k, v) :: rest else p :: imInsert rest k v

/-- The loop body of `deserialize_attributes` (src/format.rs lines
41-46): split the piece once on the first equals sign and insert the
pair when both a key and a value are present; pieces without an equals
sign leave the map unchanged. -/
def attrStep (map : List (List Char × List Char)) (kv : List Char) :
    List (List Char × List Char) :=
  match splitFirst '=' kv with
  | (key, some value) => imInsert map key value
  | (_, none) => map

/-- Embeds `deserialize_attributes` (src/format.rs lines 34-49) applied
to the decoded attributes string: split on semicolons and fold the
insertion step over the pieces. -/
def deserialize_attributes (s : List Char) : List (List Char × List Char) :=
  (splitChar ';' s).foldl attrStep []

/-- The key-value pair a piece contributes: `none` when the piece lacks
an equals sign. -/
def kvPiece? (p : List Char) : Option (List Char × List Char) :=
  match splitFirst '=' p with
  | (k, some v) => some (k, v)
  | (_, none) => none

/-- Modelled from the spec words of section 4.3, for comparison with the
source embedding `deserialize_attributes`: the key-value pieces of the
attributes string, in order, keeping only pieces that contain an equals
sign. -/
def kvPairs (s : List Char) : List (List Char × List Char) :=
  (splitChar ';' s).filterMap kvPiece?

/-- The value of the last pair with the given key, or the default when
the key does not occur. -/
def lastVal {α β : Type} [DecidableEq α] (k : α) (ps : List (α × β)) (d : β) : β :=
  match (ps.filter (fun q => decide (q.1 = k))).getLast? with
  | some q => q.2
  | none => d

/-- Modelled from the spec words of section 4.3: build the
insertion-ordered mapping where each key sits at the position of its
first occurrence and carries the value of its last occurrence. -/
def specBuild {α β : Type} [DecidableEq α] : List (α × β) → List (α × β)
  | [] => []
  | (k, v) :: rest =>
    (k, lastVal k rest v) :: specBuild (rest.filter (fun q => decide (q.1 ≠ k)))
termination_by ps => ps.length
decreasing_by
  simp only [List.length_cons]
  exact Nat.lt_succ_of_le (List.length_filter_le _ _)

/-- Embeds `DataInterval<T>` (src/format.rs): a genomic range with zero
or more optional data values. -/
structure DataInterval (T : Type) where
  range : GenomicRange
  values : List (Option T)
deriving DecidableEq

/-- Embeds `BedGraphRow<T>` (src/format.rs). -/
structure BedGraphRow (T : Type) where
  chrom : SeqId
  chrom_start : Nat
  chrom_end : Nat
  data_value : T
deriving DecidableEq

/-- Embeds `BedGraphExtRow<T>` (src/format.rs). -/
structure BedGraphExtRow (T : Type) where
  chrom : SeqId
  chrom_start : Nat
  chrom_end : Nat
  data_values : List (Option T)
deriving DecidableEq

/-- Embeds `impl From<BedGraphRow<T>> for DataInterval<T>`
(src/format.rs lines 152-161). The source calls `.unwrap()` on the
`from_0halfopen` result; the error branch embeds the panic that unwrap
would perform, and a theorem shows it is never taken. -/
def bedGraphRow_into {T : Type} (row : BedGraphRow T) : Res (DataInterval T) :=
  match from_0halfopen row.chrom (row.chrom_start, row.chrom_end) with
  | Res.ok range => Res.ok { range := range, values := [some row.data_value] }
  | Res.err e => Res.err e

/-- Embeds `impl From<BedGraphExtRow<T>> for DataInterval<T>`
(src/format.rs lines 173-182), carrying the row value sequence
verbatim. -/
def bedGraphExtRow_into {T : Type} (row : BedGraphExtRow T) : Res (DataInterval T) :=
  match from_0halfopen row.chrom (row.chrom_start, row.chrom_end) with
  | Res.ok range => Res.ok { range := range, values := row.data_values }
  | Res.err e => Res.err e

theorem u64_mod_pos : 0 < U64_MOD := by
  norm_num [U64_MOD]

theorem u64_wrapping_add_eq {a b : Nat} (h : a + b < U64_MOD) :
    u64_wrapping_add a b = a + b := by
  unfold u64_wrapping_add
  exact Nat.mod_eq_of_lt h

theorem u64_wrapping_sub_one {a : Nat} (h1 : 1 ≤ a) (h2 : a < U64_MOD) :
    u64_wrapping_sub a 1 = a - 1 := by
  unfold u64_wrapping_sub
  have e : a + U64_MOD - 1 = (a - 1) + U64_MOD := by omega
  rw [e, Nat.add_mod_right]
  exact Nat.mod_eq_of_lt (by omega)

/-- C1: for every seqid and u64 start, end with 1 <= start and
start <= end, from_1closed succeeds storing [start - 1, end) and
range_1closed reads back start..=end; and for every start <= end,
from_0halfopen succeeds storing [start, end) and range_0halfopen reads
back start..end. -/
theorem c1_roundtrip :
    (∀ (q : SeqId) (s e : Nat), 1 ≤ s → s ≤ e → e < U64_MOD →
      from_1closed q (s, e) = Res.ok ⟨q, s - 1, e⟩ ∧
        range_1closed ⟨q, s - 1, e⟩ = (s, e)) ∧
    (∀ (q : SeqId) (s e : Nat), e ≥ s →
      from_0halfopen q (s, e) = Res.ok ⟨q, s, e⟩ ∧
        range_0halfopen ⟨q, s, e⟩ = (s, e)) := by
  constructor
  · intro q s e hs hse he
    constructor
    · simp [from_1closed]
      omega
    · simp only [range_1closed]
      rw [u64_wrapping_add_eq (by omega)]
      congr 1
      omega
  · intro q s e hse
    exact ⟨rfl, rfl⟩

/-- C1 witness: the round trips at seqid chr1, 100..=200 and 10..20. -/
theorem c1_roundtrip_witness :
    (from_1closed ⟨"chr1".data⟩ (100, 200) = Res.ok ⟨⟨"chr1".data⟩, 99, 200⟩ ∧
      range_1closed ⟨⟨"chr1".data⟩, 99, 200⟩ = (100, 200)) ∧
    (from_0halfopen ⟨"chr1".data⟩ (10, 20) = Res.ok ⟨⟨"chr1".data⟩, 10, 20⟩ ∧
      range_0halfopen ⟨⟨"chr1".data⟩, 10, 20⟩ = (10, 20)) := by
  constructor
  · exact c1_roundtrip.1 ⟨"chr1".data⟩ 100 200 (by norm_num) (by norm_num)
      (by norm_num [U64_MOD])
  · exact c1_roundtrip.2 ⟨"chr1".data⟩ 10 20 (by norm_num)

/-- C2: from_1closed fails with InvalidArguments exactly when start is
zero; for start >= 1 it succeeds and stores the 0-based half-open
interval [start - 1, end). -/
theorem c2_from_1closed :
    ∀ (q : SeqId) (s e : Nat),
      (from_1closed q (s, e)
          = Res.err (Error.invalidArguments "1-based coordinates can\x27t start with 0")
        ↔ s = 0) ∧
      (1 ≤ s → from_1closed q (s, e) = Res.ok ⟨q, s - 1, e⟩) := by
  intro q s e
  by_cases h : s = 0
  · subst h
    simp [from_1closed]
  · constructor
    · simp [from_1closed, h]
    · intro _
      simp [from_1closed, h]

/-- C2 witness: from_1closed at start 0 fails and at start 5
succeeds. -/
theorem c2_from_1closed_witness :
    from_1closed ⟨"chr1".data⟩ (0, 7)
        = Res.err (Error.invalidArguments "1-based coordinates can\x27t start with 0") ∧
      from_1closed ⟨"chr1".data⟩ (5, 9) = Res.ok ⟨⟨"chr1".data⟩, 4, 9⟩ :=
  ⟨(c2_from_1closed ⟨"chr1".data⟩ 0 7).1.mpr rfl,
    (c2_from_1closed ⟨"chr1".data⟩ 5 9).2 (by norm_num)⟩

/-- C5: combine succeeds exactly when the seqids agree, returning the
bounding union with the minimum start and maximum end; otherwise it
fails with InvalidArguments. -/
theorem c5_combine :
    ∀ (a b : GenomicRange),
      (a.seqid = b.seqid →
        combine a b
          = Res.ok ⟨a.seqid, min a.start b.start, max a.stop b.stop⟩) ∧
      (a.seqid ≠ b.seqid →
        combine a b
          = Res.err (Error.invalidArguments
              "can only combine GenomicRanges with the same seqid")) := by
  intro a b
  constructor
  · intro h
    simp [combine, h]
  · intro h
    simp [combine, h]

/-- C5 witness: the concrete instances of the claim, (seq1,5,10)
combined with (seq1,8,20) and with a seq2 range. -/
theorem c5_combine_witness :
    combine ⟨⟨"seq1".data⟩, 5, 10⟩ ⟨⟨"seq1".data⟩, 8, 20⟩
        = Res.ok ⟨⟨"seq1".data⟩, 5, 20⟩ ∧
      combine ⟨⟨"seq1".data⟩, 5, 10⟩ ⟨⟨"seq2".data⟩, 8, 20⟩
        = Res.err (Error.invalidArguments
            "can only combine GenomicRanges with the same seqid") := by
  constructor
  · have h := (c5_combine ⟨⟨"seq1".data⟩, 5, 10⟩ ⟨⟨"seq1".data⟩, 8, 20⟩).1 rfl
    simpa using h
  · exact (c5_combine ⟨⟨"seq1".data⟩, 5, 10⟩ ⟨⟨"seq2".data⟩, 8, 20⟩).2 (by decide)

/-- C8: range_0closed returns start..=(end - 1) when end > start and
hits the assertion (embedded as none) whenever end <= start. -/
theorem c8_range_0closed :
    ∀ (g : GenomicRange),
      (g.start < g.stop → range_0closed g = some (g.start, g.stop - 1)) ∧
      (g.stop ≤ g.start → range_0closed g = none) := by
  intro g
  constructor
  · intro h
    simp [range_0closed, h]
  · intro h
    simp [range_0closed]
    omega

/-- C8 witness: range_0closed on the non-empty range [3, 9) and on the
empty range [5, 5). -/
theorem c8_range_0closed_witness :
    range_0closed ⟨⟨"chr1".data⟩, 3, 9⟩ = some (3, 8) ∧
      range_0closed ⟨⟨"chr1".data⟩, 5, 5⟩ = none :=
  ⟨(c8_range_0closed ⟨⟨"chr1".data⟩, 3, 9⟩).1 (by norm_num),
    (c8_range_0closed ⟨⟨"chr1".data⟩, 5, 5⟩).2 (by norm_num)⟩

/-- C9: the BedGraph-family conversions never hit the unwrap panic and
preserve values exactly: a BedGraphRow yields the range built by
from_0halfopen and the single value sequence [some data_value]; a
BedGraphExtRow yields the same range and its optional-value sequence
verbatim, as on the concrete value columns [some 5, none, some 3]. -/
theorem c9_bedgraph_into :
    (∀ (T : Type) (row : BedGraphRow T),
      bedGraphRow_into row
          = Res.ok ⟨⟨row.chrom, row.chrom_start, row.chrom_end⟩, [some row.data_value]⟩ ∧
        from_0halfopen row.chrom (row.chrom_start, row.chrom_end)
          = Res.ok ⟨row.chrom, row.chrom_start, row.chrom_end⟩) ∧
    (∀ (T : Type) (row : BedGraphExtRow T),
      bedGraphExtRow_into row
        = Res.ok ⟨⟨row.chrom, row.chrom_start, row.chrom_end⟩, row.data_values⟩) ∧
    bedGraphExtRow_into
        { chrom := ⟨"chr1".data⟩, chrom_start := 3, chrom_end := 8,
          data_values := [some (5 : Int), none, some 3] }
      = Res.ok ⟨⟨⟨"chr1".data⟩, 3, 8⟩, [some 5, none, some 3]⟩ := by
  refine ⟨fun T row => ⟨rfl, rfl⟩, fun T row => rfl, rfl⟩

/-- C10: range_1closed is exact for every internal start below the u64
maximum; from_0halfopen happily constructs a range whose start is the
u64 maximum, and on that range the start + 1 computation wraps to 0
instead of the mathematical successor. -/
theorem c10_range_1closed_overflow :
    ∀ (q : SeqId) (s e : Nat), s < U64_MOD - 1 →
      range_1closed ⟨q, s, e⟩ = (s + 1, e) ∧
        from_0halfopen q (U64_MOD - 1, e) = Res.ok ⟨q, U64_MOD - 1, e⟩ ∧
        range_1closed ⟨q, U64_MOD - 1, e⟩ = (0, e) ∧
        (0 : Nat) ≠ (U64_MOD - 1) + 1 := by
  intro q s e hs
  have hpos := u64_mod_pos
  refine ⟨?_, rfl, ?_, by omega⟩
  · simp only [range_1closed]
    rw [u64_wrapping_add_eq (by omega)]
  · simp only [range_1closed, u64_wrapping_add]
    have e1 : U64_MOD - 1 + 1 = U64_MOD := by omega
    rw [e1, Nat.mod_self]

/-- C10 witness: the overflow behaviour at start 10 and at the u64
maximum. -/
theorem c10_range_1closed_overflow_witness :
    range_1closed ⟨⟨"chr1".data⟩, 10, 20⟩ = (11, 20) ∧
      from_0halfopen ⟨"chr1".data⟩ (U64_MOD - 1, 20)
        = Res.ok ⟨⟨"chr1".data⟩, U64_MOD - 1, 20⟩ ∧
      range_1closed ⟨⟨"chr1".data⟩, U64_MOD - 1, 20⟩ = (0, 20) ∧
      (0 : Nat) ≠ (U64_MOD - 1) + 1 :=
  c10_range_1closed_overflow ⟨"chr1".data⟩ 10 20 (by norm_num [U64_MOD])

/-- C3 counterexample: from_gff_row is not total over all u64 start
values. On a row with start = 0 the unguarded u64 subtraction
`row.start - 1` underflows: the stored start is 2^64 - 1 (debug builds
abort instead), not the start - 1 promised by the claim. -/
theorem c3_counterexample :
    from_gff_row
        { seqid := ⟨"chr1".data⟩, source := [], feature_type := ([] : List Char),
          start := 0, stop := 5, score := [], strand := Strand.None, phase := [],
          attributes := [] }
      = ⟨⟨"chr1".data⟩, 2 ^ 64 - 1, 5⟩ ∧ (2 ^ 64 - 1 : Nat) ≠ 0 - 1 := by
  constructor
  · show (⟨⟨"chr1".data⟩, u64_wrapping_sub 0 1, 5⟩ : GenomicRange) = _
    rw [show u64_wrapping_sub 0 1 = 2 ^ 64 - 1 by norm_num [u64_wrapping_sub, U64_MOD]]
  · norm_num

/-- C3 amended: for every Gff3Row whose u64 start field is at least 1,
from_gff_row returns, purely and without failure, the GenomicRange with
the row seqid and internal 0-based half-open interval
[row.start - 1, row.end). -/
theorem c3_from_gff_row (T : Type) (row : Gff3Row T) (h1 : 1 ≤ row.start)
    (h2 : row.start < U64_MOD) :
    from_gff_row row = ⟨row.seqid, row.start - 1, row.stop⟩ := by
  simp only [from_gff_row]
  rw [u64_wrapping_sub_one h1 h2]

/-- C3 witness: from_gff_row on a concrete GFF3 row with the 1-based
closed coordinates 100..=200. -/
theorem c3_from_gff_row_witness :
    from_gff_row
        { seqid := ⟨"chr1".data⟩, source := "test".data, feature_type := "gene".data,
          start := 100, stop := 200, score := ".".data, strand := Strand.Plus,
          phase := ".".data, attributes := [] }
      = ⟨⟨"chr1".data⟩, 99, 200⟩ :=
  c3_from_gff_row (List Char)
    { seqid := ⟨"chr1".data⟩, source := "test".data, feature_type := "gene".data,
      start := 100, stop := 200, score := ".".data, strand := Strand.Plus,
      phase := ".".data, attributes := [] }
    (by norm_num) (by norm_num [U64_MOD])

theorem charCmp_self (a : Char) : charCmp a a = Ordering.eq := by
  simp [charCmp]

theorem charCmp_eq_iff {a b : Char} : charCmp a b = Ordering.eq ↔ a = b := by
  constructor
  · intro h
    unfold charCmp at h
    by_cases h1 : a.toNat < b.toNat
    · simp [h1] at h
    · by_cases h2 : b.toNat < a.toNat
      · simp [h1, h2] at h
      · have hn : a.toNat = b.toNat := by omega
        have hv : a.val.toNat = b.val.toNat := hn
        exact Char.eq_of_val_eq (UInt32.toNat.inj hv)
  · intro h
    subst h
    exact charCmp_self a

theorem strCmp_eq_iff {a b : List Char} : strCmp a b = Ordering.eq ↔ a = b := by
  induction a generalizing b with
  | nil => cases b <;> simp [strCmp]
  | cons c cs ih =>
    cases b with
    | nil => simp [strCmp]
    | cons d ds =>
      cases h : charCmp c d with
      | lt =>
        simp only [strCmp, h]
        constructor
        · intro habs
          exact absurd habs (by decide)
        · intro heq
          injection heq with h1 h2
          subst h1
          rw [charCmp_self] at h
          exact absurd h (by decide)
      | eq =>
        have hcd : c = d := charCmp_eq_iff.mp h
        subst hcd
        simp only [strCmp, h]
        rw [ih]
        constructor
        · intro heq
          rw [heq]
        · intro heq
          injection heq
      | gt =>
        simp only [strCmp, h]
        constructor
        · intro habs
          exact absurd habs (by decide)
        · intro heq
          injection heq with h1 h2
          subst h1
          rw [charCmp_self] at h
          exact absurd h (by decide)

/-- C4 counterexample: SeqId comparison is not a total order. It is not
transitive: "10" compares below "1a" and "1a" below "2", yet "2"
compares below "10"; and it is not consistent with equality: the
distinct strings "05" and "5" compare Equal. -/
theorem c4_counterexample :
    (¬ ∀ a b c : SeqId,
        seqid_cmp a b = Ordering.lt → seqid_cmp b c = Ordering.lt →
          seqid_cmp a c = Ordering.lt) ∧
      seqid_cmp ⟨"05".data⟩ ⟨"5".data⟩ = Ordering.eq ∧ "05".data ≠ "5".data := by
  refine ⟨fun h => ?_, by decide, by decide⟩
  have h1 := h ⟨"10".data⟩ ⟨"1a".data⟩ ⟨"2".data⟩ (by decide) (by decide)
  exact absurd h1 (by decide)

/-- C4 amended: SeqId comparison follows exactly the documented
precedence, formalised by seqIdCmpSpec: (a) identical strings compare
Equal; (b) otherwise, if both strings fully parse as unsigned 32-bit
integers, the result is the numeric comparison; (c) otherwise the
lexicographic string comparison. In particular "2" sorts before "10"
and "chr2" sorts after "chr10". (The relation is not a total order:
see the counterexample.) -/
theorem c4_seqid_cmp :
    (∀ a b : SeqId, seqid_cmp a b = seqIdCmpSpec a b) ∧
      seqid_cmp ⟨"2".data⟩ ⟨"10".data⟩ = Ordering.lt ∧
      seqid_cmp ⟨"chr2".data⟩ ⟨"chr10".data⟩ = Ordering.gt := by
  refine ⟨fun a b => ?_, by decide, by decide⟩
  cases h : strCmp a.str b.str with
  | lt =>
    have hne : a.str ≠ b.str := by
      intro he
      rw [strCmp_eq_iff.mpr he] at h
      exact absurd h (by decide)
    simp only [seqid_cmp, seqIdCmpSpec, h, if_neg hne]
  | eq =>
    have he : a.str = b.str := strCmp_eq_iff.mp h
    simp only [seqid_cmp, seqIdCmpSpec, h, if_pos he]
  | gt =>
    have hne : a.str ≠ b.str := by
      intro he
      rw [strCmp_eq_iff.mpr he] at h
      exact absurd h (by decide)
    simp only [seqid_cmp, seqIdCmpSpec, h, if_neg hne]

theorem digitsToNat?_mem {l : List Char} {acc n : Nat}
    (h : digitsToNat? l acc = some n) : ∀ c ∈ l, (decDigit? c).isSome := by
  induction l generalizing acc with
  | nil => intro c hc; cases hc
  | cons d ds ih =>
    intro c hc
    rw [digitsToNat?] at h
    cases hd : decDigit? d with
    | none => rw [hd] at h; cases h
    | some v =>
      rw [hd] at h
      rcases List.mem_cons.mp hc with h1 | h1
      · subst h1; simp [hd]
      · exact ih h c h1

theorem parseBody_chars {bound n : Nat} {l : List Char}
    (h : parseBody bound l = Res.ok n) : ∀ c ∈ l, (decDigit? c).isSome := by
  cases l with
  | nil => intro c hc; cases hc
  | cons d ds =>
    rw [parseBody] at h
    cases hd : digitsToNat? (d :: ds) 0 with
    | none => rw [hd] at h; cases h
    | some m => exact digitsToNat?_mem hd

theorem parseUnsigned_chars {bound n : Nat} {s : List Char}
    (h : parseUnsigned bound s = Res.ok n) :
    ∀ c ∈ s, c = '+' ∨ (decDigit? c).isSome := by
  cases s with
  | nil => intro c hc; cases hc
  | cons d ds =>
    rw [parseUnsigned] at h
    by_cases hd : d = '+'
    · rw [if_pos hd] at h
      intro c hc
      rcases List.mem_cons.mp hc with h1 | h1
      · exact Or.inl (h1.trans hd)
      · exact Or.inr (parseBody_chars h c h1)
    · rw [if_neg hd] at h
      intro c hc
      exact Or.inr (parseBody_chars h c hc)

theorem parseU64_no_colon_dash {s : List Char} {n : Nat}
    (h : parseU64 s = Res.ok n) : ':' ∉ s ∧ '-' ∉ s := by
  constructor
  · intro hmem
    rcases parseUnsigned_chars h ':' hmem with h1 | h1
    · exact absurd h1 (by decide)
    · exact absurd h1 (by decide)
  · intro hmem
    rcases parseUnsigned_chars h '-' hmem with h1 | h1
    · exact absurd h1 (by decide)
    · exact absurd h1 (by decide)

theorem splitChar_ne_nil (sep : Char) (s : List Char) : splitChar sep s ≠ [] := by
  cases s with
  | nil => simp [splitChar]
  | cons c rest =>
    rw [splitChar]
    cases splitChar sep rest with
    | nil => simp
    | cons t ts =>
      by_cases hc : c = sep <;> simp [hc]

theorem splitChar_cons (sep c : Char) (rest : List Char) {t : List Char}
    {ts : List (List Char)} (ht : splitChar sep rest = t :: ts) :
    splitChar sep (c :: rest) = if c = sep then [] :: t :: ts else (c :: t) :: ts := by
  rw [splitChar, ht]

theorem splitChar_no_sep {sep : Char} {s : List Char} (h : sep ∉ s) :
    splitChar sep s = [s] := by
  induction s with
  | nil => rfl
  | cons c rest ih =>
    have hc : c ≠ sep := fun he => h (he ▸ List.mem_cons_self c rest)
    have hrest : sep ∉ rest := fun hm => h (List.mem_cons_of_mem c hm)
    rw [splitChar_cons sep c rest (ih hrest), if_neg hc]

theorem splitChar_append {sep : Char} {a b : List Char} (h : sep ∉ a) :
    splitChar sep (a ++ sep :: b) = a :: splitChar sep b := by
  induction a with
  | nil =>
    obtain ⟨t, ts, ht⟩ := List.exists_cons_of_ne_nil (splitChar_ne_nil sep b)
    rw [List.nil_append, splitChar_cons sep sep b ht, if_pos rfl, ← ht]
  | cons c cs ih =>
    have hc : c ≠ sep := fun he => h (he ▸ List.mem_cons_self c cs)
    have hcs : sep ∉ cs := fun hm => h (List.mem_cons_of_mem c hm)
    rw [List.cons_append, splitChar_cons sep c _ (ih hcs), if_neg hc]

theorem joinSep_splitChar (sep : Char) (s : List Char) :
    joinSep sep (splitChar sep s) = s := by
  induction s with
  | nil => rfl
  | cons c rest ih =>
    obtain ⟨t, ts, ht⟩ := List.exists_cons_of_ne_nil (splitChar_ne_nil sep rest)
    rw [ht] at ih
    by_cases hc : c = sep
    · rw [splitChar_cons sep c rest ht, if_pos hc, joinSep, List.nil_append, ih, hc]
    · rw [splitChar_cons sep c rest ht, if_neg hc]
      cases ts with
      | nil =>
        rw [joinSep] at ih ⊢
        rw [ih]
      | cons u us =>
        rw [joinSep] at ih ⊢
        rw [List.cons_append, ih]

theorem splitChar_sep_not_mem {sep : Char} {s : List Char} :
    ∀ p ∈ splitChar sep s, sep ∉ p := by
  induction s with
  | nil =>
    intro p hp
    simp [splitChar] at hp
    simp [hp]
  | cons c rest ih =>
    obtain ⟨t, ts, ht⟩ := List.exists_cons_of_ne_nil (splitChar_ne_nil sep rest)
    rw [ht] at ih
    intro p hp
    rw [splitChar_cons sep c rest ht] at hp
    by_cases hc : c = sep
    · rw [if_pos hc] at hp
      rcases List.mem_cons.mp hp with h1 | h1
      · subst h1; exact List.not_mem_nil sep
      · exact ih p h1
    · rw [if_neg hc] at hp
      rcases List.mem_cons.mp hp with h1 | h1
      · subst h1
        intro hm
        rcases List.mem_cons.mp hm with h2 | h2
        · exact hc h2.symm
        · exact ih t (List.mem_cons_self t ts) h2
      · exact ih p (List.mem_cons_of_mem t h1)

theorem splitChar_pair {sep : Char} {s a r : List Char}
    (h : splitChar sep s = [a, r]) :
    s = a ++ sep :: r ∧ sep ∉ a ∧ sep ∉ r := by
  refine ⟨?_, ?_, ?_⟩
  · have hj := joinSep_splitChar sep s
    rw [h] at hj
    rw [show joinSep sep [a, r] = a ++ sep :: r from rfl] at hj
    exact hj.symm
  · exact splitChar_sep_not_mem a (h ▸ List.mem_cons_self a [r])
  · exact splitChar_sep_not_mem r (h ▸ List.mem_cons_of_mem a (List.mem_cons_self r []))

/-- C6: locus parsing. For every input of the exact shape
seqid, colon, start, dash, end whose two bounds parse as u64, the
result is exactly from_1closed of the 1-based closed range; every input
with no such decomposition fails with InvalidArguments carrying
the grammar hint. -/
theorem c6_locus_parse :
    (∀ (sid bs be : List Char) (s e : Nat),
      ':' ∉ sid → parseU64 bs = Res.ok s → parseU64 be = Res.ok e →
        genomicRange_try_from (sid ++ ':' :: (bs ++ '-' :: be))
          = from_1closed ⟨sid⟩ (s, e)) ∧
    (∀ t : List Char,
      (¬ ∃ (sid bs be : List Char) (s e : Nat),
          ':' ∉ sid ∧ parseU64 bs = Res.ok s ∧ parseU64 be = Res.ok e ∧
            t = sid ++ ':' :: (bs ++ '-' :: be)) →
        genomicRange_try_from t = Res.err (Error.invalidArguments locusMsg)) := by
  constructor
  · intro sid bs be s e hsid hbs hbe
    obtain ⟨hbs1, hbs2⟩ := parseU64_no_colon_dash hbs
    obtain ⟨hbe1, hbe2⟩ := parseU64_no_colon_dash hbe
    have hrest : ':' ∉ bs ++ '-' :: be := by
      intro hm
      rcases List.mem_append.mp hm with h1 | h1
      · exact hbs1 h1
      · rcases List.mem_cons.mp h1 with h2 | h2
        · exact absurd h2 (by decide)
        · exact hbe1 h2
    have e1 : splitChar ':' (sid ++ ':' :: (bs ++ '-' :: be))
        = [sid, bs ++ '-' :: be] := by
      rw [splitChar_append hsid, splitChar_no_sep hrest]
    have e2 : splitChar '-' (bs ++ '-' :: be) = [bs, be] := by
      rw [splitChar_append hbs2, splitChar_no_sep hbe2]
    simp only [genomicRange_try_from, e1, e2, hbs, hbe]
  · intro t hne
    rcases h1 : splitChar ':' t with _ | ⟨a, _ | ⟨r, _ | ⟨x, xs⟩⟩⟩
    · simp only [genomicRange_try_from, h1]
    · simp only [genomicRange_try_from, h1]
    · obtain ⟨ht, hna, hnr⟩ := splitChar_pair h1
      rcases h2 : splitChar '-' r with _ | ⟨b0, _ | ⟨b1, _ | ⟨y, ys⟩⟩⟩
      · simp only [genomicRange_try_from, h1, h2]
      · simp only [genomicRange_try_from, h1, h2]
      · obtain ⟨hr, hb0, hb1⟩ := splitChar_pair h2
        cases hp0 : parseU64 b0 with
        | ok n0 =>
          cases hp1 : parseU64 b1 with
          | ok n1 =>
            exfalso
            exact hne ⟨a, b0, b1, n0, n1, hna, hp0, hp1, by rw [ht, hr]⟩
          | err e1 => simp only [genomicRange_try_from, h1, h2, hp0, hp1]
        | err e0 =>
          cases hp1 : parseU64 b1 with
          | ok n1 => simp only [genomicRange_try_from, h1, h2, hp0, hp1]
          | err e1 => simp only [genomicRange_try_from, h1, h2, hp0, hp1]
      · simp only [genomicRange_try_from, h1, h2]
    · simp only [genomicRange_try_from, h1]

/-- C6 witness: the well-shaped locus chr1 100-200 parses through
from_1closed, and the malformed locus chr1:100 fails with the grammar
hint. -/
theorem c6_locus_parse_witness :
    genomicRange_try_from ("chr1".data ++ ':' :: ("100".data ++ '-' :: "200".data))
        = from_1closed ⟨"chr1".data⟩ (100, 200) ∧
      genomicRange_try_from "chr1:100".data
        = Res.err (Error.invalidArguments locusMsg) := by
  constructor
  · exact c6_locus_parse.1 "chr1".data "100".data "200".data 100 200
      (by decide) (by decide) (by decide)
  · refine c6_locus_parse.2 "chr1:100".data ?_
    rintro ⟨sid, bs, be, s, e, -, -, -, heq⟩
    have hmem : '-' ∈ "chr1:100".data := by
      rw [heq]
      exact List.mem_append.mpr (Or.inr (List.mem_cons_of_mem ':'
        (List.mem_append.mpr (Or.inr (List.mem_cons_self '-' be)))))
    exact absurd hmem (by decide)


theorem lastVal_nil {α β : Type} [DecidableEq α] (k : α) (d : β) :
    lastVal k ([] : List (α × β)) d = d := rfl

theorem lastVal_cons_self {α β : Type} [DecidableEq α] (k : α) (x d : β)
    (ps : List (α × β)) : lastVal k ((k, x) :: ps) d = lastVal k ps x := by
  unfold lastVal
  rw [List.filter_cons]
  simp only [decide_eq_true_eq, if_pos rfl, if_true]
  cases h : ps.filter (fun q => decide (q.1 = k)) with
  | nil => simp [h]
  | cons q l =>
    obtain ⟨y, hy⟩ := Option.isSome_iff_exists.mp
      (List.getLast?_isSome.mpr (List.cons_ne_nil q l))
    simp only [h, List.getLast?_cons_cons, hy]

theorem lastVal_cons_ne {α β : Type} [DecidableEq α] {k : α} {q : α × β}
    (h : q.1 ≠ k) (ps : List (α × β)) (d : β) :
    lastVal k (q :: ps) d = lastVal k ps d := by
  unfold lastVal
  rw [List.filter_cons, if_neg (by simpa using h)]

theorem imInsert_head_eq {α β : Type} [DecidableEq α] (k : α) (v x : β)
    (m : List (α × β)) : imInsert ((k, v) :: m) k x = (k, x) :: m := by
  simp [imInsert]

theorem imInsert_head_ne {α β : Type} [DecidableEq α] {k k2 : α} (h : k ≠ k2)
    (v x : β) (m : List (α × β)) :
    imInsert ((k, v) :: m) k2 x = (k, v) :: imInsert m k2 x := by
  simp [imInsert, h]

theorem foldl_imInsert_cons {α β : Type} [DecidableEq α] :
    ∀ (ps : List (α × β)) (k : α) (v : β) (m : List (α × β)),
      ps.foldl (fun acc q => imInsert acc q.1 q.2) ((k, v) :: m)
        = (k, lastVal k ps v)
          :: (ps.filter (fun q => decide (q.1 ≠ k))).foldl
               (fun acc q => imInsert acc q.1 q.2) m := by
  intro ps
  induction ps with
  | nil => intro k v m; simp [lastVal]
  | cons q ps ih =>
    intro k v m
    obtain ⟨q1, q2⟩ := q
    by_cases hq : q1 = k
    · subst hq
      simp only [List.foldl_cons]
      rw [imInsert_head_eq, ih, lastVal_cons_self]
      rw [List.filter_cons]
      simp
    · simp only [List.foldl_cons]
      rw [imInsert_head_ne (fun he => hq he.symm), ih,
        lastVal_cons_ne (q := (q1, q2)) hq]
      rw [List.filter_cons, if_pos (by simpa using hq)]
      rw [List.foldl_cons]

theorem foldl_imInsert_specBuild {α β : Type} [DecidableEq α]
    (ps : List (α × β)) :
    ps.foldl (fun acc q => imInsert acc q.1 q.2) [] = specBuild ps := by
  have H : ∀ (n : Nat) (l : List (α × β)), l.length ≤ n →
      l.foldl (fun acc q => imInsert acc q.1 q.2) [] = specBuild l := by
    intro n
    induction n with
    | zero =>
      intro l hl
      have : l = [] := List.eq_nil_of_length_eq_zero (Nat.le_zero.mp hl)
      subst this
      simp [specBuild]
    | succ n ih =>
      intro l hl
      cases l with
      | nil => simp [specBuild]
      | cons q rest =>
        obtain ⟨k, v⟩ := q
        simp only [List.foldl_cons]
        rw [show imInsert ([] : List (α × β)) k v = [(k, v)] from rfl]
        rw [foldl_imInsert_cons]
        rw [ih (rest.filter (fun q => decide (q.1 ≠ k)))
          (le_trans (List.length_filter_le _ _) (Nat.succ_le_succ_iff.mp hl))]
        rw [specBuild]
  exact H ps.length ps le_rfl

theorem foldl_attrStep_filterMap :
    ∀ (l : List (List Char)) (acc : List (List Char × List Char)),
      l.foldl attrStep acc
        = (l.filterMap kvPiece?).foldl (fun acc q => imInsert acc q.1 q.2) acc := by
  intro l
  induction l with
  | nil => intro acc; rfl
  | cons p l ih =>
    intro acc
    rcases h : splitFirst '=' p with ⟨k, v?⟩
    cases v? with
    | none =>
      rw [List.foldl_cons, List.filterMap_cons]
      rw [show attrStep acc p = acc by simp [attrStep, h]]
      rw [show kvPiece? p = none by simp [kvPiece?, h]]
      exact ih acc
    | some v =>
      rw [List.foldl_cons, List.filterMap_cons]
      rw [show attrStep acc p = imInsert acc k v by simp [attrStep, h]]
      rw [show kvPiece? p = some (k, v) by simp [kvPiece?, h]]
      rw [List.foldl_cons]
      exact ih (imInsert acc k v)

/-- C7: attribute parsing. The source parser equals the spec-level
characterisation: split the raw string on semicolons, keep the pieces
with an equals sign as key-value pairs (pieces without one are silently
discarded, and nothing ever fails), and build the insertion-ordered
mapping in which each key sits at its first-occurrence position and
carries its last-occurrence value. On the concrete input of the claim
the result is the two-entry mapping with ID at gene1 and Name at Bar. -/
theorem c7_attribute_parsing :
    (∀ s : List Char, deserialize_attributes s = specBuild (kvPairs s)) ∧
      deserialize_attributes "ID=gene1;Name=Foo;bad;Name=Bar".data
        = [("ID".data, "gene1".data), ("Name".data, "Bar".data)] := by
  constructor
  · intro s
    rw [deserialize_attributes, kvPairs, foldl_attrStep_filterMap,
      foldl_imInsert_specBuild]
  · decide


end Gannot
